import Mathlib

/-!
Shallow embedding of the two core modules of the repository:

* `src/data_processer.py` — class `SignificanceAnalyzer` (threshold-sweep
  statistical analyzer), and
* `src/related_content_extractor.py` — class `ContentExtractor` (exact and
  loose term matching with context windowing).

Conventions of the embedding:

* Python text is modelled as `List Char`; Python slices `s[a:b]` (with the
  clamping Python performs) become `(s.drop a).take (b - a)` over `Nat`,
  where `Nat` subtraction supplies the `max 0` clamp.
* Python numbers appearing in percentages / statistics are modelled as exact
  rationals (`ℚ`); counts are `Nat`, thresholds are `Int`.
* Unbounded `while True:` loops are modelled with an explicit fuel argument
  returning `Option`: `none` means the loop did not return within `fuel`
  iterations.  A proof that the result is `none` for every fuel is a proof
  that the Python loop never terminates.
* `str.lower()` is modelled by mapping `Char.toLower` over the characters
  (length-preserving, as for the ASCII corpora this system processes).
-/

/-! ## Significance analyzer: data model (`src/data_processer.py`) -/

/-- One entry of `data['significance_results']`, as consumed by
`SignificanceAnalyzer._count_results` (well-formed view, both fields
present). -/
structure SigRecord where
  context_count : Int
  is_significant : Bool
deriving DecidableEq

/-- The dictionary returned by `SignificanceAnalyzer.analyze_by_threshold`. -/
structure ThresholdStat where
  threshold : Int
  total : Nat
  true_count : Nat
  false_count : Nat
  percentage : ℚ
deriving DecidableEq

/-- The dictionary returned by `SignificanceAnalyzer.calculate_statistics`. -/
structure SummaryStat where
  average_percentage : ℚ
  variance : ℚ
deriving DecidableEq

/-- Body of the `for result in self.data['significance_results']` loop of
`_count_results` (lines 99-104): one record updates the running
`(true_count, false_count)` accumulator. -/
def countStep (threshold : Int) (acc : Nat × Nat) (r : SigRecord) : Nat × Nat :=
  if r.context_count < threshold then
    if r.is_significant then (acc.1 + 1, acc.2) else (acc.1, acc.2 + 1)
  else acc

/-- `SignificanceAnalyzer._count_results` (lines 87-106) on well-formed data:
returns `(true_count + false_count, true_count, false_count)`. -/
def countResults (records : List SigRecord) (threshold : Int) : Nat × Nat × Nat :=
  let c := records.foldl (countStep threshold) (0, 0)
  (c.1 + c.2, c.1, c.2)

/-- `SignificanceAnalyzer.analyze_by_threshold` (lines 22-40). -/
def analyzeByThreshold (records : List SigRecord) (threshold : Int) : ThresholdStat :=
  let c := countResults records threshold
  let percentage : ℚ := if c.1 > 0 then (c.2.1 : ℚ) / (c.1 : ℚ) * 100 else 0
  { threshold := threshold
    total := c.1
    true_count := c.2.1
    false_count := c.2.2
    percentage := percentage }

/-- The `total` produced at a given threshold (shorthand used by the sweep
theorems). -/
def totalAt (records : List SigRecord) (threshold : Int) : Nat :=
  (countResults records threshold).1

/-- The `while True:` loop of `analyze_all_thresholds` (lines 55-62), with
explicit fuel.  Faithful to the source: the loop first computes `stats`,
breaks (returning the accumulated results, here built by consing) when
`stats['total'] == prev_total and stats['total'] > 0`, and otherwise appends
`stats`, updates `prev_total` and increments `threshold`. -/
def sweepAux (records : List SigRecord) : Nat → Int → Nat → Option (List ThresholdStat)
  | 0, _, _ => none
  | fuel + 1, threshold, prev_total =>
    let stats := analyzeByThreshold records threshold
    if stats.total = prev_total ∧ stats.total > 0 then some []
    else (sweepAux records fuel (threshold + 1) stats.total).map (fun rest => stats :: rest)

/-- `SignificanceAnalyzer.analyze_all_thresholds` (lines 42-64), fuel-indexed.
`none` means the loop performed `fuel` iterations without returning. -/
def analyzeAllThresholds (records : List SigRecord) (start_threshold : Int) (fuel : Nat) :
    Option (List ThresholdStat) :=
  sweepAux records fuel start_threshold 0

/-- `SignificanceAnalyzer.calculate_statistics` (lines 66-85). -/
def calculateStatistics (results : List ThresholdStat) : Option SummaryStat :=
  let percentages := results.map (fun r => r.percentage)
  if percentages.isEmpty then none
  else
    let avg := percentages.sum / (percentages.length : ℚ)
    let variance := (percentages.map (fun x => (x - avg) ^ 2)).sum / (percentages.length : ℚ)
    some { average_percentage := avg, variance := variance }

/-- Spec-side definition (§4.2, glossary): the arithmetic mean of a sequence
of percentages. -/
def specArithMean (xs : List ℚ) : ℚ := xs.sum / (xs.length : ℚ)

/-- Spec-side definition (§4.2, glossary): population variance — sum of
squared deviations from the mean divided by `n` (not `n - 1`). -/
def specPopulationVariance (xs : List ℚ) : ℚ :=
  ((xs.map (fun x => (x - specArithMean xs) ^ 2)).sum) / (xs.length : ℚ)

/-! ### Raw (possibly malformed) view of the analyzer input, for the
error-handling claim.  `self.data` is arbitrary JSON; `_count_results`
guards with `isinstance(self.data, dict) and 'significance_results' in
self.data`, and each record access `result['context_count']` /
`result['is_significant']` raises a `KeyError` when the field is absent. -/

/-- A record of the analyzer input whose fields may be absent. -/
structure RawRecord where
  context_count : Option Int
  is_significant : Option Bool
deriving DecidableEq

/-- The analyzer's loaded `self.data`: either not a dict at all, or a dict
in which the `significance_results` key may be absent. -/
inductive AnalyzerData where
  | notDict : AnalyzerData
  | dict : Option (List RawRecord) → AnalyzerData
deriving DecidableEq

/-- The only exception the counting code can raise: a Python `KeyError`
carrying the missing key's name. -/
inductive PyError where
  | keyError : String → PyError
deriving DecidableEq

/-- Python dictionary access `record[name]`: the value, or a `KeyError`. -/
def getField {α : Type} (o : Option α) (name : String) : Except PyError α :=
  match o with
  | some v => Except.ok v
  | none => Except.error (PyError.keyError name)

/-- The record loop of `_count_results` over raw records; note
`result['is_significant']` is only accessed for records passing the
`context_count < threshold` filter, exactly as in the source. -/
def countLoopRaw (threshold : Int) : List RawRecord → Nat → Nat → Except PyError (Nat × Nat)
  | [], t, f => Except.ok (t, f)
  | r :: rs, t, f =>
    match getField r.context_count "context_count" with
    | Except.error e => Except.error e
    | Except.ok cc =>
      if cc < threshold then
        match getField r.is_significant "is_significant" with
        | Except.error e => Except.error e
        | Except.ok sig =>
          if sig then countLoopRaw threshold rs (t + 1) f else countLoopRaw threshold rs t (f + 1)
      else countLoopRaw threshold rs t f

/-- `_count_results` on raw data (lines 96-106): when `self.data` is not a
dict, or lacks the `significance_results` key, the `if` guard is skipped and
the zero counters are returned; otherwise the loop runs and may raise. -/
def countResultsRaw (data : AnalyzerData) (threshold : Int) : Except PyError (Nat × Nat × Nat) :=
  match data with
  | AnalyzerData.notDict => Except.ok (0, 0, 0)
  | AnalyzerData.dict none => Except.ok (0, 0, 0)
  | AnalyzerData.dict (some rs) =>
    match countLoopRaw threshold rs 0 0 with
    | Except.error e => Except.error e
    | Except.ok (t, f) => Except.ok (t + f, t, f)

/-! ## Content extractor: data model (`src/related_content_extractor.py`) -/

/-- One entry of `self.matches`, as built by `ContentExtractor._add_match`
(lines 128-133). -/
structure Match where
  file_name : String
  match_type : String
  match_term : List Char
  context : List Char
deriving DecidableEq

/-- Python slice `s[a:b]` for `0 ≤ a ≤ b` (Python clamps `b` past the end;
`take` does the same). -/
def pySlice (s : List Char) (a b : Nat) : List Char := (s.drop a).take (b - a)

/-- `ContentExtractor._add_match` (lines 114-133), as the pure construction
of the appended record.  `stop` stands for the Python parameter `end`
(a reserved word in Lean).  `start - context_length` over `Nat` is Python's
`max(0, start - self.context_length)`. -/
def mkMatch (content : List Char) (start stop : Nat) (term : List Char)
    (file_name : String) (match_type : String) (context_length : Nat) : Match :=
  let context_start := start - context_length
  let context_end := min content.length (stop + context_length)
  { file_name := file_name
    match_type := match_type
    match_term := term
    context := pySlice content context_start context_end }

/-- Linear scan returning the first index `i`, among the `n` indices
`i, i+1, …, i+n-1`, at which `p` holds.  This is the common skeleton of the
`for i in range(...)`-with-`break` loop of `_loose_match` and of Python's
`str.find`. -/
def firstHit (p : Nat → Bool) : Nat → Nat → Option Nat
  | 0, _ => none
  | n + 1, i => if p i then some i else firstHit p n (i + 1)

/-- Python `search.find(needle, start)` (as used by `_exact_match`, line 107),
returning `none` for `-1`: the least `i` with `start ≤ i ≤ len(search)` such
that `needle` occurs at `i`. -/
def pyFind (search needle : List Char) (start : Nat) : Option Nat :=
  firstHit (fun i => needle.isPrefixOf (search.drop i)) (search.length + 1 - start) start

/-- Python substring test `needle in hay` (line 89). -/
def pyIn (needle hay : List Char) : Bool :=
  (firstHit (fun i => needle.isPrefixOf (hay.drop i)) (hay.length + 1) 0).isSome

/-- The window `search_content[i:window_end]` with
`window_end = min(i + loose_match_length, len(search_content))`
(lines 86-87). -/
def windowAt (search : List Char) (L i : Nat) : List Char :=
  pySlice search i (min (i + L) search.length)

/-- The `all(k in window for k in keywords)` test of line 89 at offset `i`. -/
def loosePred (search : List Char) (L : Nat) (keywords : List (List Char)) (i : Nat) : Bool :=
  keywords.all (fun k => pyIn k (windowAt search L i))

/-- The scanning loop of `_loose_match` (lines 85-91): the first offset
`i ∈ [0, len(search_content))` whose window contains every keyword, paired
with its `window_end`; `none` when the loop falls through without a break. -/
def looseSpan (search : List Char) (L : Nat) (keywords : List (List Char)) : Option (Nat × Nat) :=
  (firstHit (loosePred search L keywords) search.length 0).map
    (fun i => (i, min (i + L) search.length))

/-- Lines 81-83 of `_loose_match`: `keywords = term.split("+")`, lowercased
when the search is case-insensitive. -/
def looseKeywords (term : List Char) (case_sensitive : Bool) : List (List Char) :=
  let keywords := term.splitOn '+'
  if case_sensitive then keywords else keywords.map (fun k => k.map Char.toLower)

/-- `ContentExtractor._loose_match` (lines 71-91) as the list of records it
appends: at most one, built by `_add_match` on the original `content`. -/
def looseMatchFn (content search term : List Char) (file_name : String)
    (case_sensitive : Bool) (context_length loose_match_length : Nat) : List Match :=
  match looseSpan search loose_match_length (looseKeywords term case_sensitive) with
  | none => []
  | some (i, e) => [mkMatch content i e term file_name "loose_match" context_length]

/-- The `while True:` loop of `_exact_match` (lines 104-112), fuel-indexed,
returning the list of spans `(pos, pos + len(term))` passed to `_add_match`
in order; `none` means the loop did not finish within `fuel` iterations. -/
def exactSpansAux (search needle : List Char) (termLen : Nat) :
    Nat → Nat → Option (List (Nat × Nat))
  | 0, _ => none
  | fuel + 1, start_pos =>
    match pyFind search needle start_pos with
    | none => some []
    | some pos =>
      (exactSpansAux search needle termLen fuel (pos + termLen)).map
        (fun rest => (pos, pos + termLen) :: rest)

/-- `ContentExtractor._exact_match` (lines 93-112) as the list of records it
appends: `search_term` is the (possibly lowercased) term, spans use
`len(term)`, and `_add_match` slices the original `content`. -/
def exactMatchFn (content search term : List Char) (file_name : String)
    (case_sensitive : Bool) (context_length : Nat) (fuel : Nat) : Option (List Match) :=
  let search_term := if case_sensitive then term else term.map Char.toLower
  (exactSpansAux search search_term term.length fuel 0).map
    (fun spans => spans.map (fun se => mkMatch content se.1 se.2 term file_name "exact_match" context_length))

/-- The dispatch of `_process_file` (lines 62-66) for one term: loose when
the term contains `'+'`, exact otherwise. -/
def termMatches (content search term : List Char) (file_name : String)
    (case_sensitive : Bool) (context_length loose_match_length : Nat) (fuel : Nat) :
    Option (List Match) :=
  if term.contains '+' then
    some (looseMatchFn content search term file_name case_sensitive context_length loose_match_length)
  else exactMatchFn content search term file_name case_sensitive context_length fuel

/-- The `for term in search_terms` loop of `_process_file`, collecting the
records appended to `self.matches` in order. -/
def processTerms (content search : List Char) (file_name : String)
    (case_sensitive : Bool) (context_length loose_match_length : Nat) (fuel : Nat) :
    List (List Char) → Option (List Match)
  | [] => some []
  | term :: terms =>
    match termMatches content search term file_name case_sensitive context_length loose_match_length fuel with
    | none => none
    | some ms =>
      (processTerms content search file_name case_sensitive context_length loose_match_length fuel terms).map
        (fun rest => ms ++ rest)

/-- The mutable state of a `ContentExtractor` instance (the `input_dir` and
`output_file` paths play no role in the matching logic and are omitted;
documents are supplied as `(file name, content)` pairs instead of being read
from disk). -/
structure ContentExtractor where
  context_length : Nat
  loose_match_length : Nat
  /-- the Python attribute `matches` (`matches` is a reserved word in Lean,
  hence the trailing underscore) -/
  matches_ : List Match
deriving DecidableEq

/-- `ContentExtractor.__init__` (lines 18-31): `self.matches = []`. -/
def initExtractor (context_length loose_match_length : Nat) : ContentExtractor :=
  { context_length := context_length
    loose_match_length := loose_match_length
    matches_ := [] }

/-- `ContentExtractor._process_file` (lines 48-69) on an already-read
document: computes `search_content` (lowercased when case-insensitive) and
appends every produced record to `self.matches`. -/
def processFile (ex : ContentExtractor) (content : List Char) (file_name : String)
    (terms : List (List Char)) (case_sensitive : Bool) (fuel : Nat) : Option ContentExtractor :=
  let search := if case_sensitive then content else content.map Char.toLower
  (processTerms content search file_name case_sensitive ex.context_length ex.loose_match_length fuel terms).map
    (fun new => { ex with matches_ := ex.matches_ ++ new })

/-- The `for txt_file in txt_files` loop of `extract_content` (lines 43-44). -/
def extractContentAux (terms : List (List Char)) (case_sensitive : Bool) (fuel : Nat) :
    ContentExtractor → List (String × List Char) → Option ContentExtractor
  | ex, [] => some ex
  | ex, (file_name, content) :: docs =>
    match processFile ex content file_name terms case_sensitive fuel with
    | none => none
    | some ex2 => extractContentAux terms case_sensitive fuel ex2 docs

/-- `ContentExtractor.extract_content` (lines 33-46) over in-memory
documents; the final `_save_results` call reads the resulting state and is
modelled by `saveResults` below. -/
def extractContent (ex : ContentExtractor) (docs : List (String × List Char))
    (terms : List (List Char)) (case_sensitive : Bool) (fuel : Nat) : Option ContentExtractor :=
  extractContentAux terms case_sensitive fuel ex docs

/-- `ContentExtractor._save_results` (lines 135-143): the payload written to
the output file — `none` when `self.matches` is empty (no file written). -/
def saveResults (ex : ContentExtractor) : Option (List Match) :=
  if ex.matches_.isEmpty then none else some ex.matches_

/-- The matches accumulated by one extraction run started from a fresh
instance. -/
def runMatches (context_length loose_match_length : Nat) (docs : List (String × List Char))
    (terms : List (List Char)) (case_sensitive : Bool) (fuel : Nat) : Option (List Match) :=
  (extractContent (initExtractor context_length loose_match_length) docs terms case_sensitive fuel).map
    (fun e => e.matches_)

/-- Spec-side definition for the exact-match claim: `occSeq search needle lo
xs` states that `xs` is a list of pairwise non-overlapping occurrence
positions of `needle` in `search`, in strictly increasing order, all `≥ lo`.
Each position must fit in the document (`x + |needle| ≤ |search|`), carry an
occurrence (`needle` is a prefix of the text from `x` on), and the next
position must start at or after the end of this occurrence (`max |needle| 1`
makes positions strictly increase even for an empty needle, so that a list
counts *distinct* occurrences). -/
def occSeq (search needle : List Char) : Nat → List Nat → Bool
  | _, [] => true
  | lo, x :: xs =>
    decide (lo ≤ x) && decide (x + needle.length ≤ search.length) &&
      needle.isPrefixOf (search.drop x) && occSeq search needle (x + max needle.length 1) xs

/-! ## Helper lemmas: counting -/

/-- The counting fold of `_count_results` computes the two filtered counts. -/
theorem foldl_countStep (threshold : Int) (l : List SigRecord) : ∀ (a b : Nat),
    l.foldl (countStep threshold) (a, b) =
      (a + (l.filter (fun r => r.is_significant && decide (r.context_count < threshold))).length,
       b + (l.filter (fun r => !r.is_significant && decide (r.context_count < threshold))).length) := by
  induction l with
  | nil => intro a b; simp
  | cons r rs ih =>
    intro a b
    by_cases hcc : r.context_count < threshold <;>
      by_cases hs : r.is_significant <;>
        simp [List.foldl_cons, countStep, hcc, hs, ih, List.filter_cons, Prod.ext_iff] <;>
          omega

/-- Every record with `context_count < threshold` is counted exactly once:
the full filtered count splits into the significant and non-significant
counts. -/
theorem filter_split (threshold : Int) (l : List SigRecord) :
    (l.filter (fun r => decide (r.context_count < threshold))).length =
      (l.filter (fun r => r.is_significant && decide (r.context_count < threshold))).length +
      (l.filter (fun r => !r.is_significant && decide (r.context_count < threshold))).length := by
  induction l with
  | nil => rfl
  | cons r rs ih =>
    by_cases hcc : r.context_count < threshold
    · by_cases hs : r.is_significant <;>
        simp [List.filter_cons, hcc, hs, ih] <;> omega
    · simp [List.filter_cons, hcc, ih]

/-- `_count_results` in closed form: `(total, true_count, false_count)` are
the three filter counts. -/
theorem countResults_eq (records : List SigRecord) (threshold : Int) :
    countResults records threshold =
      ((records.filter (fun r => decide (r.context_count < threshold))).length,
       (records.filter (fun r => r.is_significant && decide (r.context_count < threshold))).length,
       (records.filter (fun r => !r.is_significant && decide (r.context_count < threshold))).length) := by
  unfold countResults
  rw [foldl_countStep]
  simp [filter_split]

/-- `totalAt` in closed form. -/
theorem totalAt_eq (records : List SigRecord) (threshold : Int) :
    totalAt records threshold =
      (records.filter (fun r => decide (r.context_count < threshold))).length := by
  unfold totalAt
  rw [countResults_eq]

/-! ## Claim theorems: analyzer -/

/-- The sweep loop body never breaks on an empty record set: `total` is `0`
at every threshold, so `stats['total'] > 0` never holds and the loop runs
out of any amount of fuel. -/
theorem sweepAux_nil_eq_none : ∀ (fuel : Nat) (threshold : Int) (prev : Nat),
    sweepAux ([] : List SigRecord) fuel threshold prev = none := by
  intro fuel
  induction fuel with
  | zero => intro t p; rfl
  | succ f ih =>
    intro t p
    simp [sweepAux, analyzeByThreshold, countResults, ih]

/-- C3: the code imposes no threshold/iteration cap and defines no
`SweepDidNotStabilizeError` (the name appears nowhere in the repository);
on the failing input — an empty record set with the default
`start_threshold = 2` — `analyze_all_thresholds` simply never returns:
after every finite number of loop iterations it is still running. -/
theorem C3_sweep_on_empty_records_never_returns :
    ∀ fuel : Nat, analyzeAllThresholds ([] : List SigRecord) 2 fuel = none := by
  intro fuel
  unfold analyzeAllThresholds
  exact sweepAux_nil_eq_none fuel 2 0

/-- C4, counterexample: on input lacking the `significance_results` key
(or not a dict at all), `_count_results` silently returns the empty counts
`(0, 0, 0)` instead of raising anything; and on a record missing a field it
raises a plain `KeyError`, not a `MalformedInputError` (which the code never
defines). -/
theorem C4_counterexample :
    countResultsRaw (AnalyzerData.dict none) 2 = Except.ok (0, 0, 0) ∧
    countResultsRaw AnalyzerData.notDict 2 = Except.ok (0, 0, 0) ∧
    countResultsRaw
        (AnalyzerData.dict (some [{ context_count := none, is_significant := some true }])) 2 =
      Except.error (PyError.keyError "context_count") ∧
    countResultsRaw
        (AnalyzerData.dict (some [{ context_count := some 1, is_significant := none }])) 2 =
      Except.error (PyError.keyError "is_significant") := by
  refine ⟨rfl, rfl, rfl, ?_⟩
  have h : (1 : Int) < 2 := by omega
  simp [countResultsRaw, countLoopRaw, getField, h]

/-- C4, amended: when the Analyzer's input is not a dict or lacks the
`significance_results` key, `_count_results` silently returns the empty
counts `(0, 0, 0)`; when a record reached by the loop lacks `context_count`,
or passes the threshold filter but lacks `is_significant`, a plain Python
`KeyError` for that field propagates.  No `MalformedInputError` exists. -/
theorem C4_malformed_input_behavior (threshold : Int) :
    countResultsRaw AnalyzerData.notDict threshold = Except.ok (0, 0, 0) ∧
    countResultsRaw (AnalyzerData.dict none) threshold = Except.ok (0, 0, 0) ∧
    (∀ (b : Option Bool) (rs : List RawRecord),
      countResultsRaw
          (AnalyzerData.dict (some ({ context_count := none, is_significant := b } :: rs)))
          threshold =
        Except.error (PyError.keyError "context_count")) ∧
    (∀ rs : List RawRecord,
      countResultsRaw
          (AnalyzerData.dict
            (some ({ context_count := some (threshold - 1), is_significant := none } :: rs)))
          threshold =
        Except.error (PyError.keyError "is_significant")) := by
  refine ⟨rfl, rfl, fun b rs => rfl, fun rs => ?_⟩
  have h : threshold - 1 < threshold := by omega
  simp [countResultsRaw, countLoopRaw, getField, h]

/-- C8: `analyze_by_threshold` counts exactly the records with
`context_count < threshold`; `total = true_count + false_count` with
`true_count` counting the significant ones; `percentage` is
`true_count/total*100` when `total > 0` and `0` otherwise; and on the empty
record set every field is zero.  The function is total — no input makes it
raise. -/
theorem C8_analyze_by_threshold_correct (records : List SigRecord) (threshold : Int) :
    (analyzeByThreshold records threshold).threshold = threshold ∧
    (analyzeByThreshold records threshold).total =
      (records.filter (fun r => decide (r.context_count < threshold))).length ∧
    (analyzeByThreshold records threshold).true_count =
      (records.filter (fun r => r.is_significant && decide (r.context_count < threshold))).length ∧
    (analyzeByThreshold records threshold).false_count =
      (records.filter (fun r => !r.is_significant && decide (r.context_count < threshold))).length ∧
    (analyzeByThreshold records threshold).total =
      (analyzeByThreshold records threshold).true_count +
        (analyzeByThreshold records threshold).false_count ∧
    (analyzeByThreshold records threshold).percentage =
      (if 0 < (analyzeByThreshold records threshold).total
       then ((analyzeByThreshold records threshold).true_count : ℚ) /
              ((analyzeByThreshold records threshold).total : ℚ) * 100
       else 0) ∧
    analyzeByThreshold ([] : List SigRecord) threshold =
      { threshold := threshold, total := 0, true_count := 0, false_count := 0, percentage := 0 } := by
  refine ⟨rfl, ?_, ?_, ?_, ?_, ?_, ?_⟩
  · simp [analyzeByThreshold, countResults_eq]
  · simp [analyzeByThreshold, countResults_eq]
  · simp [analyzeByThreshold, countResults_eq]
  · simp [analyzeByThreshold, countResults_eq, filter_split]
  · simp [analyzeByThreshold]
  · simp [analyzeByThreshold, countResults]

/-- C9: `calculate_statistics` returns `none` exactly on an empty input
sequence, and otherwise the arithmetic mean of the `percentage` fields
together with their population variance (sum of squared deviations from the
mean divided by `n`, not `n - 1`). -/
theorem C9_calculate_statistics_correct (results : List ThresholdStat) :
    (calculateStatistics results = none ↔ results = []) ∧
    calculateStatistics results =
      (if results = [] then none
       else
         some { average_percentage := specArithMean (results.map (fun s => s.percentage)),
                variance := specPopulationVariance (results.map (fun s => s.percentage)) }) := by
  cases results with
  | nil => exact ⟨by simp [calculateStatistics], by simp [calculateStatistics]⟩
  | cons r rs =>
    constructor
    · simp [calculateStatistics]
    · simp [calculateStatistics, specArithMean, specPopulationVariance]

/-! ## Helper lemmas: the threshold sweep -/

/-- Once the threshold exceeds every record's `context_count`, `total` is the
full record count. -/
theorem totalAt_saturate (records : List SigRecord) (thr : Int)
    (h : ∀ r ∈ records, r.context_count < thr) : totalAt records thr = records.length := by
  rw [totalAt_eq]
  have he : records.filter (fun r => decide (r.context_count < thr)) = records := by
    rw [List.filter_eq_self]
    intro a ha
    exact decide_eq_true (h a ha)
  rw [he]

/-- `total` is bounded by the record count at every threshold. -/
theorem totalAt_le_length (records : List SigRecord) (thr : Int) :
    totalAt records thr ≤ records.length := by
  rw [totalAt_eq]
  exact List.length_filter_le _ _

/-- The starting accumulator is below the running maximum of
`context_count`. -/
theorem le_foldl_max (l : List SigRecord) : ∀ init : Int,
    init ≤ l.foldl (fun a r => max a r.context_count) init := by
  induction l with
  | nil => intro init; exact le_refl _
  | cons r rs ih =>
    intro init
    exact le_trans (le_max_left init r.context_count) (ih _)

/-- Every record's `context_count` is below the running maximum. -/
theorem mem_le_foldl_max (l : List SigRecord) : ∀ (init : Int) (r : SigRecord), r ∈ l →
    r.context_count ≤ l.foldl (fun a r => max a r.context_count) init := by
  induction l with
  | nil => intro _ r hr; cases hr
  | cons x xs ih =>
    intro init r hr
    cases hr with
    | head =>
      simp only [List.foldl_cons]
      exact le_trans (le_max_right init x.context_count) (le_foldl_max xs _)
    | tail _ h =>
      simp only [List.foldl_cons]
      exact ih _ r h

/-- One-step unfolding of the sweep loop at positive fuel. -/
theorem sweepAux_succ (records : List SigRecord) (f : Nat) (thr : Int) (prev : Nat) :
    sweepAux records (f + 1) thr prev =
      (if (analyzeByThreshold records thr).total = prev ∧ (analyzeByThreshold records thr).total > 0
       then some []
       else (sweepAux records f (thr + 1) (analyzeByThreshold records thr).total).map
         (fun rest => analyzeByThreshold records thr :: rest)) := rfl

/-- Termination of the sweep on a non-empty record set: two iterations after
the threshold passes the bound `B` on all `context_count`s, `total` has been
equal to `prev_total` with a positive value, so the loop has broken.  `k`
counts the iterations still needed to reach `B`. -/
theorem sweepAux_terminates (records : List SigRecord) (B : Int)
    (hne : records ≠ []) (hB : ∀ r ∈ records, r.context_count < B) :
    ∀ (k : Nat) (thr : Int) (prev : Nat), B ≤ thr + k →
      ∀ fuel : Nat, k + 2 ≤ fuel → ∃ l, sweepAux records fuel thr prev = some l := by
  intro k
  induction k with
  | zero =>
    intro thr prev hthr fuel hfuel
    obtain ⟨f, rfl⟩ : ∃ f, fuel = f + 2 := ⟨fuel - 2, by omega⟩
    have hthr' : B ≤ thr := by simpa using hthr
    have hn : totalAt records thr = records.length :=
      totalAt_saturate records thr (fun r hr => lt_of_lt_of_le (hB r hr) hthr')
    have hn1 : totalAt records (thr + 1) = records.length :=
      totalAt_saturate records (thr + 1) (fun r hr => lt_of_lt_of_le (hB r hr) (by omega))
    have hpos : 0 < records.length := List.length_pos.mpr hne
    by_cases hbr : (analyzeByThreshold records thr).total = prev ∧
        (analyzeByThreshold records thr).total > 0
    · exact ⟨[], by rw [show f + 2 = (f + 1) + 1 by rfl, sweepAux_succ, if_pos hbr]⟩
    · refine ⟨[analyzeByThreshold records thr], ?_⟩
      rw [show f + 2 = (f + 1) + 1 by rfl, sweepAux_succ, if_neg hbr]
      have hc : (analyzeByThreshold records (thr + 1)).total =
          (analyzeByThreshold records thr).total ∧
          (analyzeByThreshold records (thr + 1)).total > 0 := by
        refine ⟨?_, ?_⟩
        · show totalAt records (thr + 1) = totalAt records thr
          rw [hn1, hn]
        · show 0 < totalAt records (thr + 1)
          rw [hn1]; exact hpos
      rw [sweepAux_succ, if_pos hc]
      rfl
  | succ k ih =>
    intro thr prev hthr fuel hfuel
    obtain ⟨f, rfl⟩ : ∃ f, fuel = f + 1 := ⟨fuel - 1, by omega⟩
    by_cases hbr : (analyzeByThreshold records thr).total = prev ∧
        (analyzeByThreshold records thr).total > 0
    · exact ⟨[], by rw [sweepAux_succ, if_pos hbr]⟩
    · have hthr' : B ≤ (thr + 1) + (k : Int) := by push_cast at hthr ⊢; omega
      obtain ⟨l, hl⟩ := ih (thr + 1) (analyzeByThreshold records thr).total hthr' f (by omega)
      refine ⟨analyzeByThreshold records thr :: l, ?_⟩
      rw [sweepAux_succ, if_neg hbr, hl]
      rfl

/-- A sweep that returns the empty list broke at its very first iteration:
the break condition held there. -/
theorem sweepAux_some_nil (records : List SigRecord) :
    ∀ (fuel : Nat) (thr : Int) (prev : Nat), sweepAux records fuel thr prev = some [] →
      (analyzeByThreshold records thr).total = prev ∧ 0 < prev := by
  intro fuel thr prev h
  cases fuel with
  | zero => exact absurd h (by simp [sweepAux])
  | succ f =>
    by_cases hbr : (analyzeByThreshold records thr).total = prev ∧
        (analyzeByThreshold records thr).total > 0
    · exact ⟨hbr.1, hbr.1 ▸ hbr.2⟩
    · exfalso
      rw [sweepAux_succ, if_neg hbr] at h
      cases hrec : sweepAux records f (thr + 1) (analyzeByThreshold records thr).total with
      | none => rw [hrec] at h; simp at h
      | some l => rw [hrec] at h; simp at h

/-- The last entry of a successful non-empty sweep is a genuine
`analyze_by_threshold` statistic with positive `total`. -/
theorem sweepAux_last (records : List SigRecord) :
    ∀ (fuel : Nat) (thr : Int) (prev : Nat) (l : List ThresholdStat),
      sweepAux records fuel thr prev = some l → l ≠ [] →
      ∃ s t, l.getLast? = some s ∧ s = analyzeByThreshold records t ∧ 0 < s.total := by
  intro fuel
  induction fuel with
  | zero => intro thr prev l h _; exact absurd h (by simp [sweepAux])
  | succ f ih =>
    intro thr prev l h hne
    by_cases hbr : (analyzeByThreshold records thr).total = prev ∧
        (analyzeByThreshold records thr).total > 0
    · rw [sweepAux_succ, if_pos hbr] at h
      exact absurd (Option.some.inj h).symm hne
    · rw [sweepAux_succ, if_neg hbr] at h
      cases hrec : sweepAux records f (thr + 1) (analyzeByThreshold records thr).total with
      | none => rw [hrec] at h; simp at h
      | some l' =>
        rw [hrec] at h
        have hl : l = analyzeByThreshold records thr :: l' := by
          simp only [Option.map_some'] at h
          exact (Option.some.inj h).symm
        cases hl' : l' with
        | nil =>
          subst hl'
          have hb := sweepAux_some_nil records f (thr + 1)
            (analyzeByThreshold records thr).total hrec
          exact ⟨analyzeByThreshold records thr, thr, by rw [hl]; rfl, rfl, hb.2⟩
        | cons x xs =>
          have hne' : l' ≠ [] := by rw [hl']; exact List.cons_ne_nil x xs
          obtain ⟨s, t, hgl, hs, hpos⟩ := ih (thr + 1) (analyzeByThreshold records thr).total l' hrec hne'
          refine ⟨s, t, ?_, hs, hpos⟩
          rw [hl, hl']
          rw [List.getLast?_cons_cons]
          rw [← hl', hgl]

/-- C2, amended: on every finite non-empty record set the sweep terminates
(some finite fuel suffices for the `while True:` loop to return), the
returned sequence is non-empty, and the `total` of its final entry is
positive and at most `|records|`.  (It equals the value of the first
positive stabilized plateau, which the counterexample shows can be smaller
than `|records|`.) -/
theorem C2_sweep_terminates (records : List SigRecord) (start_threshold : Int)
    (hne : records ≠ []) :
    ∃ (fuel : Nat) (l : List ThresholdStat),
      analyzeAllThresholds records start_threshold fuel = some l ∧ l ≠ [] ∧
      ∀ s, l.getLast? = some s → 0 < s.total ∧ s.total ≤ records.length := by
  have hB : ∀ r ∈ records, r.context_count <
      records.foldl (fun a r => max a r.context_count) 0 + 1 :=
    fun r hr => lt_of_le_of_lt (mem_le_foldl_max records 0 r hr) (by omega)
  have hk : records.foldl (fun a r => max a r.context_count) 0 + 1 ≤
      start_threshold +
        ((records.foldl (fun a r => max a r.context_count) 0 + 1 - start_threshold).toNat : Int) := by
    omega
  obtain ⟨l, hl⟩ := sweepAux_terminates records
    (records.foldl (fun a r => max a r.context_count) 0 + 1) hne hB
    (records.foldl (fun a r => max a r.context_count) 0 + 1 - start_threshold).toNat
    start_threshold 0 hk
    ((records.foldl (fun a r => max a r.context_count) 0 + 1 - start_threshold).toNat + 2)
    (le_refl _)
  have hlne : l ≠ [] := by
    intro hnil
    subst hnil
    have hb := sweepAux_some_nil records _ start_threshold 0 hl
    omega
  refine ⟨_, l, hl, hlne, ?_⟩
  intro s hs
  obtain ⟨s', t, hgl, hs', hpos⟩ := sweepAux_last records _ start_threshold 0 l hl hlne
  have hss : s = s' := by
    rw [hs] at hgl
    exact Option.some.inj hgl
  subst hss
  refine ⟨hpos, ?_⟩
  rw [hs']
  show totalAt records t ≤ records.length
  exact totalAt_le_length records t

/-- Witness for `C2_sweep_terminates` at a concrete record set. -/
theorem C2_sweep_terminates_witness :
    ∃ (fuel : Nat) (l : List ThresholdStat),
      analyzeAllThresholds ([⟨1, true⟩] : List SigRecord) 2 fuel = some l ∧ l ≠ [] ∧
      ∀ s, l.getLast? = some s →
        0 < s.total ∧ s.total ≤ ([⟨1, true⟩] : List SigRecord).length :=
  C2_sweep_terminates [⟨1, true⟩] 2 (by simp)

/-- C2, counterexample: with records whose `context_count`s are `1` and
`10`, the sweep stabilizes at the plateau `total = 1` (thresholds `2` and
`3` both admit only the first record) and stops, so the final entry's
`total` is `1` while `|records| = 2`. -/
theorem C2_counterexample :
    analyzeAllThresholds ([⟨1, true⟩, ⟨10, false⟩] : List SigRecord) 2 20 =
      some [{ threshold := 2, total := 1, true_count := 1, false_count := 0, percentage := 100 }] ∧
    ([⟨1, true⟩, ⟨10, false⟩] : List SigRecord).length = 2 ∧
    (1 : Nat) ≠ 2 := by
  refine ⟨?_, rfl, by omega⟩
  norm_num [analyzeAllThresholds, sweepAux, analyzeByThreshold, countResults, countStep]

/-- Full characterization of a successful sweep from an arbitrary loop
state: there is a stopping threshold `T` at which the break condition first
holds (compared against `prev` at the entry threshold, and against the
previous iteration's `total` afterwards), and the returned list holds the
statistics of exactly the thresholds before `T` — the entry for `T` itself
is *not* appended. -/
theorem sweepAux_char (records : List SigRecord) :
    ∀ (fuel : Nat) (thr : Int) (prev : Nat) (l : List ThresholdStat),
      sweepAux records fuel thr prev = some l →
      ∃ T : Int, thr ≤ T ∧
        (∀ t : Int, thr ≤ t → t < T →
          ¬(totalAt records t = (if t = thr then prev else totalAt records (t - 1)) ∧
            0 < totalAt records t)) ∧
        totalAt records T = (if T = thr then prev else totalAt records (T - 1)) ∧
        0 < totalAt records T ∧
        l = (List.range (T - thr).toNat).map (fun j : Nat => analyzeByThreshold records (thr + (j : Int))) := by
  intro fuel
  induction fuel with
  | zero => intro thr prev l h; exact absurd h (by simp [sweepAux])
  | succ f ih =>
    intro thr prev l h
    by_cases hbr : (analyzeByThreshold records thr).total = prev ∧
        (analyzeByThreshold records thr).total > 0
    · rw [sweepAux_succ, if_pos hbr] at h
      have hl : l = [] := (Option.some.inj h).symm
      refine ⟨thr, le_refl thr, ?_, ?_, ?_, ?_⟩
      · intro t h1 h2; omega
      · rw [if_pos rfl]; exact hbr.1
      · exact hbr.2
      · rw [hl]; simp
    · rw [sweepAux_succ, if_neg hbr] at h
      cases hrec : sweepAux records f (thr + 1) (analyzeByThreshold records thr).total with
      | none => rw [hrec] at h; simp at h
      | some l' =>
        rw [hrec] at h
        have hl : l = analyzeByThreshold records thr :: l' := by
          simp only [Option.map_some'] at h
          exact (Option.some.inj h).symm
        obtain ⟨T, hT1, hT2, hT3, hT4, hT5⟩ :=
          ih (thr + 1) (analyzeByThreshold records thr).total l' hrec
        have hconv : ∀ t : Int, thr + 1 ≤ t →
            (if t = thr + 1 then (analyzeByThreshold records thr).total
             else totalAt records (t - 1)) = totalAt records (t - 1) := by
          intro t ht
          by_cases he : t = thr + 1
          · rw [if_pos he, he]
            show totalAt records thr = totalAt records (thr + 1 - 1)
            norm_num
          · rw [if_neg he]
        refine ⟨T, by omega, ?_, ?_, hT4, ?_⟩
        · intro t ht1 ht2
          by_cases hteq : t = thr
          · subst hteq
            rw [if_pos rfl]
            exact hbr
          · rw [if_neg hteq]
            have ht1' : thr + 1 ≤ t := by omega
            have h2 := hT2 t ht1' ht2
            rw [hconv t ht1'] at h2
            exact h2
        · have hTne : ¬(T = thr) := by omega
          rw [if_neg hTne]
          rw [hconv T hT1] at hT3
          exact hT3
        · rw [hl, hT5]
          have hn : (T - thr).toNat = (T - (thr + 1)).toNat + 1 := by omega
          rw [hn, List.range_succ_eq_map, List.map_cons, List.map_map]
          congr 1
          · norm_num
          · apply List.map_congr_left
            intro j hj
            show analyzeByThreshold records (thr + 1 + (j : Int)) =
              analyzeByThreshold records (thr + ((Nat.succ j : Nat) : Int))
            congr 1
            push_cast
            ring

/-- C1, amended: `analyze_all_thresholds` stops at the first threshold `T`
(strictly after the start, since the initial `prev_total = 0` can never
satisfy the positive-duplicate condition) at which `total` equals the
previous iteration's `total` with that total positive — but it breaks
*before* appending `T`'s statistic.  The returned sequence consists of the
statistics for exactly the thresholds `start, …, T - 1`: every returned
entry has threshold `< T`, and the last element is the entry for `T - 1`,
not the stabilizing duplicate entry. -/
theorem C1_sweep_stops_before_appending (records : List SigRecord) (start_threshold : Int)
    (fuel : Nat) (l : List ThresholdStat)
    (h : analyzeAllThresholds records start_threshold fuel = some l) :
    ∃ T : Int, start_threshold < T ∧
      totalAt records T = totalAt records (T - 1) ∧ 0 < totalAt records T ∧
      (∀ t : Int, start_threshold < t → t < T →
        ¬(totalAt records t = totalAt records (t - 1) ∧ 0 < totalAt records t)) ∧
      l = (List.range (T - start_threshold).toNat).map
            (fun j : Nat => analyzeByThreshold records (start_threshold + (j : Int))) ∧
      l.getLast? = some (analyzeByThreshold records (T - 1)) ∧
      ∀ s ∈ l, s.threshold < T := by
  obtain ⟨T, hT1, hT2, hT3, hT4, hT5⟩ := sweepAux_char records fuel start_threshold 0 l h
  have hTgt : start_threshold < T := by
    rcases eq_or_lt_of_le hT1 with he | hlt
    · exfalso
      rw [← he, if_pos rfl] at hT3
      rw [← he] at hT4
      omega
    · exact hlt
  have hTne : ¬(T = start_threshold) := by omega
  rw [if_neg hTne] at hT3
  refine ⟨T, hTgt, hT3, hT4, ?_, hT5, ?_, ?_⟩
  · intro t ht1 ht2
    have h2 := hT2 t (by omega) ht2
    rw [if_neg (by omega : ¬(t = start_threshold))] at h2
    exact h2
  · rw [hT5]
    obtain ⟨m, hm⟩ : ∃ m, (T - start_threshold).toNat = m + 1 := ⟨(T - start_threshold).toNat - 1, by omega⟩
    rw [hm, List.range_succ, List.map_append]
    simp only [List.map_cons, List.map_nil]
    rw [List.getLast?_concat]
    have : start_threshold + (m : Int) = T - 1 := by omega
    rw [this]
  · intro s hs
    rw [hT5] at hs
    obtain ⟨j, hj, hjs⟩ := List.mem_map.mp hs
    have hjlt : (j : Int) < T - start_threshold := by
      have := List.mem_range.mp hj
      omega
    rw [← hjs]
    show start_threshold + (j : Int) < T
    omega

/-- Witness for `C1_sweep_stops_before_appending` at a concrete input. -/
theorem C1_sweep_stops_before_appending_witness :
    ∃ T : Int, (2 : Int) < T ∧
      totalAt ([⟨1, true⟩] : List SigRecord) T =
        totalAt ([⟨1, true⟩] : List SigRecord) (T - 1) ∧
      0 < totalAt ([⟨1, true⟩] : List SigRecord) T ∧
      (∀ t : Int, (2 : Int) < t → t < T →
        ¬(totalAt ([⟨1, true⟩] : List SigRecord) t =
            totalAt ([⟨1, true⟩] : List SigRecord) (t - 1) ∧
          0 < totalAt ([⟨1, true⟩] : List SigRecord) t)) ∧
      ([(⟨2, 1, 1, 0, 100⟩ : ThresholdStat)] : List ThresholdStat) =
        (List.range (T - 2).toNat).map
          (fun j : Nat => analyzeByThreshold ([⟨1, true⟩] : List SigRecord) (2 + (j : Int))) ∧
      ([(⟨2, 1, 1, 0, 100⟩ : ThresholdStat)] : List ThresholdStat).getLast? =
        some (analyzeByThreshold ([⟨1, true⟩] : List SigRecord) (T - 1)) ∧
      ∀ s ∈ ([(⟨2, 1, 1, 0, 100⟩ : ThresholdStat)] : List ThresholdStat), s.threshold < T :=
  C1_sweep_stops_before_appending [⟨1, true⟩] 2 10 [⟨2, 1, 1, 0, 100⟩]
    (by norm_num [analyzeAllThresholds, sweepAux, analyzeByThreshold, countResults, countStep])

/-- C1, counterexample: for the single record with `context_count = 1` and
`start_threshold = 2`, threshold `3` is the first threshold whose `total`
equals the previous iteration's (`1`, positive) — yet the returned sequence
is only the threshold-`2` entry: the stabilizing duplicate-total entry for
threshold `3` is not an element of the result at all, let alone its last
element as the claim requires. -/
theorem C1_counterexample :
    analyzeAllThresholds ([⟨1, true⟩] : List SigRecord) 2 10 =
      some [{ threshold := 2, total := 1, true_count := 1, false_count := 0, percentage := 100 }] ∧
    totalAt ([⟨1, true⟩] : List SigRecord) 3 = totalAt ([⟨1, true⟩] : List SigRecord) 2 ∧
    0 < totalAt ([⟨1, true⟩] : List SigRecord) 3 ∧
    analyzeByThreshold ([⟨1, true⟩] : List SigRecord) 3 ∉
      ([{ threshold := 2, total := 1, true_count := 1, false_count := 0,
          percentage := 100 }] : List ThresholdStat) := by
  refine ⟨?_, by decide, by decide, ?_⟩
  · norm_num [analyzeAllThresholds, sweepAux, analyzeByThreshold, countResults, countStep]
  · intro hmem
    have h3 : analyzeByThreshold ([⟨1, true⟩] : List SigRecord) 3 =
        { threshold := 3, total := 1, true_count := 1, false_count := 0, percentage := 100 } := by
      norm_num [analyzeByThreshold, countResults, countStep]
    rw [h3] at hmem
    have := List.mem_singleton.mp hmem
    have h32 : (3 : Int) = 2 := congrArg ThresholdStat.threshold this
    omega

/-! ## Helper lemmas: scanning -/

/-- One-step unfolding of the scan. -/
theorem firstHit_succ (p : Nat → Bool) (n i : Nat) :
    firstHit p (n + 1) i = if p i then some i else firstHit p n (i + 1) := rfl

/-- A successful scan returns the first index in its range satisfying `p`. -/
theorem firstHit_some (p : Nat → Bool) : ∀ (n i j : Nat), firstHit p n i = some j →
    i ≤ j ∧ j < i + n ∧ p j = true ∧ ∀ m, i ≤ m → m < j → p m = false := by
  intro n
  induction n with
  | zero => intro i j h; exact absurd h (by simp [firstHit])
  | succ n ih =>
    intro i j h
    by_cases hp : p i
    · rw [firstHit_succ, if_pos hp] at h
      have hj : i = j := Option.some.inj h
      subst hj
      exact ⟨le_refl i, by omega, hp, fun m h1 h2 => absurd h2 (by omega)⟩
    · rw [firstHit_succ, if_neg hp] at h
      obtain ⟨h1, h2, h3, h4⟩ := ih (i + 1) j h
      simp only [Bool.not_eq_true] at hp
      refine ⟨by omega, by omega, h3, ?_⟩
      intro m hm1 hm2
      by_cases hmi : m = i
      · subst hmi; exact hp
      · exact h4 m (by omega) hm2

/-- A failed scan means no index in its range satisfies `p`. -/
theorem firstHit_none (p : Nat → Bool) : ∀ (n i : Nat), firstHit p n i = none →
    ∀ m, i ≤ m → m < i + n → p m = false := by
  intro n
  induction n with
  | zero => intro i _ m h1 h2; omega
  | succ n ih =>
    intro i h m h1 h2
    by_cases hp : p i
    · rw [firstHit_succ, if_pos hp] at h
      exact absurd h (by simp)
    · rw [firstHit_succ, if_neg hp] at h
      simp only [Bool.not_eq_true] at hp
      by_cases hmi : m = i
      · subst hmi; exact hp
      · exact ih (i + 1) h m (by omega) (by omega)

/-- If some index in range satisfies `p`, the scan succeeds. -/
theorem firstHit_isSome_of_hit (p : Nat → Bool) : ∀ (n i m : Nat), i ≤ m → m < i + n →
    p m = true → ∃ j, firstHit p n i = some j := by
  intro n
  induction n with
  | zero => intro i m h1 h2 _; omega
  | succ n ih =>
    intro i m h1 h2 h3
    by_cases hp : p i
    · exact ⟨i, by rw [firstHit_succ, if_pos hp]⟩
    · have hmi : m ≠ i := fun he => hp (he ▸ h3)
      obtain ⟨j, hj⟩ := ih (i + 1) m (by omega) (by omega) h3
      exact ⟨j, by rw [firstHit_succ, if_neg hp]; exact hj⟩

/-- `isPrefixOf` agrees with the prefix relation (characters compare by
equality). -/
theorem isPrefixOf_length_le (needle l : List Char) (h : needle.isPrefixOf l = true) :
    needle.length ≤ l.length := by
  have hp : needle <+: l := List.isPrefixOf_iff_prefix.mp h
  exact hp.length_le

/-- A successful `str.find` returns the least occurrence index at or after
`start`, and the occurrence fits inside the text. -/
theorem pyFind_some (search needle : List Char) (start pos : Nat)
    (h : pyFind search needle start = some pos) :
    start ≤ pos ∧ pos ≤ search.length ∧ pos + needle.length ≤ search.length ∧
      needle.isPrefixOf (search.drop pos) = true ∧
      ∀ m, start ≤ m → m < pos → needle.isPrefixOf (search.drop m) = false := by
  obtain ⟨h1, h2, h3, h4⟩ := firstHit_some _ _ _ _ h
  have hlen : pos ≤ search.length := by omega
  have hfit : pos + needle.length ≤ search.length := by
    have := isPrefixOf_length_le needle (search.drop pos) h3
    rw [List.length_drop] at this
    omega
  exact ⟨h1, hlen, hfit, h3, h4⟩

/-- A failed `str.find` means no occurrence at or after `start`. -/
theorem pyFind_none (search needle : List Char) (start : Nat)
    (h : pyFind search needle start = none) :
    ∀ m, start ≤ m → m ≤ search.length → needle.isPrefixOf (search.drop m) = false := by
  intro m h1 h2
  exact firstHit_none _ _ _ h m h1 (by omega)

/-- If `needle` occurs at or after `start` (within the text), `str.find`
succeeds. -/
theorem pyFind_isSome_of_occ (search needle : List Char) (start m : Nat)
    (h1 : start ≤ m) (h2 : m ≤ search.length)
    (h3 : needle.isPrefixOf (search.drop m) = true) :
    ∃ pos, pyFind search needle start = some pos := by
  exact firstHit_isSome_of_hit _ _ _ m h1 (by omega) h3

/-- A successful loose scan stopped at the least qualifying offset. -/
theorem looseSpan_some (search : List Char) (L : Nat) (kws : List (List Char)) (i e : Nat)
    (h : looseSpan search L kws = some (i, e)) :
    i < search.length ∧ e = min (i + L) search.length ∧
      loosePred search L kws i = true ∧
      ∀ j, j < i → loosePred search L kws j = false := by
  unfold looseSpan at h
  cases hf : firstHit (loosePred search L kws) search.length 0 with
  | none => rw [hf] at h; simp at h
  | some i0 =>
    rw [hf] at h
    simp only [Option.map_some'] at h
    have hpair := Option.some.inj h
    have hi : i0 = i := congrArg Prod.fst hpair
    have he : min (i0 + L) search.length = e := congrArg Prod.snd hpair
    subst hi
    obtain ⟨h1, h2, h3, h4⟩ := firstHit_some _ _ _ _ hf
    exact ⟨by omega, he.symm, h3, fun j hj => h4 j (by omega) hj⟩

/-- A failed loose scan means no offset qualifies. -/
theorem looseSpan_none (search : List Char) (L : Nat) (kws : List (List Char))
    (h : looseSpan search L kws = none) :
    ∀ i, i < search.length → loosePred search L kws i = false := by
  intro i hi
  unfold looseSpan at h
  cases hf : firstHit (loosePred search L kws) search.length 0 with
  | none => exact firstHit_none _ _ _ hf i (by omega) (by omega)
  | some i0 => rw [hf] at h; simp at h

/-- C5: loose matching emits at most one `Match` per (document, term) pair,
always with kind `loose_match`; when it emits one, the match is at the
earliest offset `i` whose clamped window `[i, min(i+L, n))` contains every
keyword as a substring (`loosePred`), and scanning stopped there; when it
emits none, no offset of the document qualifies. -/
theorem C5_loose_match_at_most_one_first_window (content search term : List Char)
    (file_name : String) (case_sensitive : Bool) (W L : Nat) :
    (looseMatchFn content search term file_name case_sensitive W L).length ≤ 1 ∧
    (∀ m ∈ looseMatchFn content search term file_name case_sensitive W L,
      m.match_type = "loose_match") ∧
    (∀ i e, looseSpan search L (looseKeywords term case_sensitive) = some (i, e) →
      looseMatchFn content search term file_name case_sensitive W L =
        [mkMatch content i e term file_name "loose_match" W] ∧
      i < search.length ∧ e = min (i + L) search.length ∧
      loosePred search L (looseKeywords term case_sensitive) i = true ∧
      ∀ j, j < i → loosePred search L (looseKeywords term case_sensitive) j = false) ∧
    (looseSpan search L (looseKeywords term case_sensitive) = none →
      looseMatchFn content search term file_name case_sensitive W L = [] ∧
      ∀ i, i < search.length → loosePred search L (looseKeywords term case_sensitive) i = false) := by
  refine ⟨?_, ?_, ?_, ?_⟩
  · unfold looseMatchFn
    cases looseSpan search L (looseKeywords term case_sensitive) with
    | none => simp
    | some p => cases p; simp
  · intro m hm
    unfold looseMatchFn at hm
    cases hs : looseSpan search L (looseKeywords term case_sensitive) with
    | none => rw [hs] at hm; simp at hm
    | some p =>
      obtain ⟨i, e⟩ := p
      rw [hs] at hm
      have hme : m = mkMatch content i e term file_name "loose_match" W :=
        List.mem_singleton.mp hm
      rw [hme]
      rfl
  · intro i e hs
    obtain ⟨h1, h2, h3, h4⟩ := looseSpan_some search L _ i e hs
    refine ⟨?_, h1, h2, h3, h4⟩
    unfold looseMatchFn
    rw [hs]
  · intro hs
    refine ⟨?_, looseSpan_none search L _ hs⟩
    unfold looseMatchFn
    rw [hs]

/-- Witness for `C5_loose_match_at_most_one_first_window`: over the document
`"axc"` with compound term `"a+c"` and window length `3`, the single loose
match is emitted at offset `0`. -/
theorem C5_loose_match_witness :
    looseMatchFn ['a', 'x', 'c'] ['a', 'x', 'c'] ['a', '+', 'c'] "f" true 1 3 =
      [mkMatch ['a', 'x', 'c'] 0 3 ['a', '+', 'c'] "f" "loose_match" 1] ∧
    loosePred ['a', 'x', 'c'] 3 (looseKeywords ['a', '+', 'c'] true) 0 = true :=
  ⟨((C5_loose_match_at_most_one_first_window ['a', 'x', 'c'] ['a', 'x', 'c'] ['a', '+', 'c']
      "f" true 1 3).2.2.1 0 3 (by decide)).1,
   ((C5_loose_match_at_most_one_first_window ['a', 'x', 'c'] ['a', 'x', 'c'] ['a', '+', 'c']
      "f" true 1 3).2.2.1 0 3 (by decide)).2.2.2.1⟩

/-- The context slice of `_add_match`, spelt out. -/
theorem mkMatch_context_eq (content : List Char) (s e : Nat) (term : List Char)
    (file_name match_type : String) (W : Nat) :
    (mkMatch content s e term file_name match_type W).context =
      pySlice content (s - W) (min content.length (e + W)) := rfl

/-- Clamping bounds of the context window: its length is at most
`2W + (e - s)` and the slice stays inside the document. -/
theorem mkMatch_context_bounds (content : List Char) (s e : Nat) (term : List Char)
    (file_name match_type : String) (W : Nat) (hse : s ≤ e) (hel : e ≤ content.length) :
    (mkMatch content s e term file_name match_type W).context.length ≤ 2 * W + (e - s) ∧
    (s - W) + (mkMatch content s e term file_name match_type W).context.length ≤
      content.length := by
  have hc : (mkMatch content s e term file_name match_type W).context.length =
      min (min content.length (e + W) - (s - W)) (content.length - (s - W)) := by
    simp [mkMatch, pySlice, List.length_take, List.length_drop]
  rw [hc]
  rcases Nat.le_total content.length (e + W) with h | h
  · rw [Nat.min_eq_left h]
    constructor <;> omega
  · rw [Nat.min_eq_right h]
    constructor <;> omega

/-- One-step unfolding of the exact-match loop at positive fuel. -/
theorem exactSpansAux_succ (search needle : List Char) (tl f sp : Nat) :
    exactSpansAux search needle tl (f + 1) sp =
      (match pyFind search needle sp with
       | none => some []
       | some pos =>
         (exactSpansAux search needle tl f (pos + tl)).map
           (fun rest => (pos, pos + tl) :: rest)) := rfl

/-- Unfolding of the exact-match loop when the search fails. -/
theorem exactSpansAux_succ_none (search needle : List Char) (tl f sp : Nat)
    (h : pyFind search needle sp = none) :
    exactSpansAux search needle tl (f + 1) sp = some [] := by
  simp only [exactSpansAux_succ, h]

/-- Unfolding of the exact-match loop when the search succeeds. -/
theorem exactSpansAux_succ_some (search needle : List Char) (tl f sp pos : Nat)
    (h : pyFind search needle sp = some pos) :
    exactSpansAux search needle tl (f + 1) sp =
      (exactSpansAux search needle tl f (pos + tl)).map
        (fun rest => (pos, pos + tl) :: rest) := by
  simp only [exactSpansAux_succ, h]

/-- Every span produced by the exact-match loop is a genuine occurrence of
the searched needle, of width `tl`, fitting inside the text. -/
theorem exactSpansAux_spans (search needle : List Char) (tl : Nat) :
    ∀ (fuel start_pos : Nat) (l : List (Nat × Nat)),
      exactSpansAux search needle tl fuel start_pos = some l →
      ∀ se ∈ l, se.2 = se.1 + tl ∧ needle.isPrefixOf (search.drop se.1) = true ∧
        se.1 + needle.length ≤ search.length := by
  intro fuel
  induction fuel with
  | zero => intro sp l h; exact absurd h (by simp [exactSpansAux])
  | succ f ih =>
    intro sp l h
    cases hf : pyFind search needle sp with
    | none =>
      simp only [exactSpansAux_succ, hf] at h
      have hl : l = [] := (Option.some.inj h).symm
      subst hl
      intro se hse
      cases hse
    | some pos =>
      simp only [exactSpansAux_succ, hf] at h
      cases hrec : exactSpansAux search needle tl f (pos + tl) with
      | none => rw [hrec] at h; simp at h
      | some l' =>
        rw [hrec] at h
        simp only [Option.map_some'] at h
        have hl : l = (pos, pos + tl) :: l' := (Option.some.inj h).symm
        subst hl
        intro se hse
        obtain ⟨hp1, hp2, hfit, hpre, hleast⟩ := pyFind_some search needle sp pos hf
        cases hse with
        | head => exact ⟨rfl, hpre, hfit⟩
        | tail _ hmem => exact ih (pos + tl) l' hrec se hmem

/-- Decomposition of `_exact_match`: a successful run is the mapped list of
its spans. -/
theorem exactMatchFn_elim (content search term : List Char) (file_name : String)
    (case_sensitive : Bool) (W fuel : Nat) (ms : List Match)
    (h : exactMatchFn content search term file_name case_sensitive W fuel = some ms) :
    ∃ spans,
      exactSpansAux search (if case_sensitive then term else term.map Char.toLower)
        term.length fuel 0 = some spans ∧
      ms = spans.map (fun se => mkMatch content se.1 se.2 term file_name "exact_match" W) := by
  simp only [exactMatchFn] at h
  cases hs : exactSpansAux search (if case_sensitive then term else term.map Char.toLower)
      term.length fuel 0 with
  | none => rw [hs] at h; simp at h
  | some spans =>
    rw [hs] at h
    simp only [Option.map_some'] at h
    exact ⟨spans, rfl, (Option.some.inj h).symm⟩

/-- C7: every match record produced for a document (by either matching
mode, case-sensitive or not) carries as `context` the slice
`content[max(0, s - W) : min(n, e + W)]` of the *original* document text
(`_add_match` receives `content`, never `search_content`), whose length is
at most `2W` plus the match width and which never reaches outside
`[0, n)`. -/
theorem C7_context_window (content search term : List Char) (file_name : String)
    (case_sensitive : Bool) (W L fuel : Nat) (l : List Match) (m : Match)
    (hsl : search.length = content.length)
    (h : termMatches content search term file_name case_sensitive W L fuel = some l)
    (hm : m ∈ l) :
    ∃ s e, s ≤ e ∧ e ≤ content.length ∧
      m.context = pySlice content (s - W) (min content.length (e + W)) ∧
      m.context.length ≤ 2 * W + (e - s) ∧
      (s - W) + m.context.length ≤ content.length := by
  unfold termMatches at h
  by_cases hplus : term.contains '+'
  · rw [if_pos hplus] at h
    have hl : l = looseMatchFn content search term file_name case_sensitive W L :=
      (Option.some.inj h).symm
    subst hl
    unfold looseMatchFn at hm
    cases hs : looseSpan search L (looseKeywords term case_sensitive) with
    | none => rw [hs] at hm; simp at hm
    | some p =>
      obtain ⟨i, e⟩ := p
      rw [hs] at hm
      have hme : m = mkMatch content i e term file_name "loose_match" W :=
        List.mem_singleton.mp hm
      obtain ⟨hi, he, _, _⟩ := looseSpan_some search L _ i e hs
      have hie : i ≤ e := by rw [he]; exact le_min (by omega) (by omega)
      have hec : e ≤ content.length := by
        rw [he, ← hsl]
        exact min_le_right _ _
      obtain ⟨hb1, hb2⟩ := mkMatch_context_bounds content i e term file_name "loose_match" W hie hec
      rw [hme]
      exact ⟨i, e, hie, hec, rfl, hb1, hb2⟩
  · rw [if_neg hplus] at h
    obtain ⟨spans, hspans, hms⟩ := exactMatchFn_elim content search term file_name
      case_sensitive W fuel l h
    rw [hms] at hm
    obtain ⟨se, hsein, hsem⟩ := List.mem_map.mp hm
    obtain ⟨h2e, hpre, hfit⟩ := exactSpansAux_spans search
      (if case_sensitive then term else term.map Char.toLower) term.length fuel 0 spans
      hspans se hsein
    have hnl : (if case_sensitive then term else term.map Char.toLower).length = term.length := by
      cases case_sensitive <;> simp
    have hse : se.1 ≤ se.2 := by omega
    have hec : se.2 ≤ content.length := by
      rw [← hsl]
      omega
    obtain ⟨hb1, hb2⟩ := mkMatch_context_bounds content se.1 se.2 term file_name
      "exact_match" W hse hec
    rw [← hsem]
    exact ⟨se.1, se.2, hse, hec, rfl, hb1, hb2⟩

/-- Witness for `C7_context_window`: the exact match of `"a"` in `"ab"` with
`W = 1` has context `"ab"`, i.e. the clamped slice `[0, 2)`. -/
theorem C7_context_window_witness :
    ∃ s e, s ≤ e ∧ e ≤ (['a', 'b'] : List Char).length ∧
      (mkMatch ['a', 'b'] 0 1 ['a'] "f" "exact_match" 1).context =
        pySlice ['a', 'b'] (s - 1) (min (['a', 'b'] : List Char).length (e + 1)) ∧
      (mkMatch ['a', 'b'] 0 1 ['a'] "f" "exact_match" 1).context.length ≤ 2 * 1 + (e - s) ∧
      (s - 1) + (mkMatch ['a', 'b'] 0 1 ['a'] "f" "exact_match" 1).context.length ≤
        (['a', 'b'] : List Char).length :=
  C7_context_window ['a', 'b'] ['a', 'b'] ['a'] "f" true 1 2 3
    [mkMatch ['a', 'b'] 0 1 ['a'] "f" "exact_match" 1]
    (mkMatch ['a', 'b'] 0 1 ['a'] "f" "exact_match" 1)
    (by decide) (by decide) (by decide)

/-! ## Helper lemmas: occurrence sequences and the exact-match loop -/

/-- An occurrence sequence for a lower bound is one for any smaller bound. -/
theorem occSeq_mono (search needle : List Char) : ∀ (xs : List Nat) (lo lo' : Nat), lo' ≤ lo →
    occSeq search needle lo xs = true → occSeq search needle lo' xs = true := by
  intro xs
  induction xs with
  | nil => intro lo lo' _ _; rfl
  | cons x xs ih =>
    intro lo lo' hle h
    simp only [occSeq, Bool.and_eq_true, decide_eq_true_eq] at h ⊢
    obtain ⟨⟨⟨h1, h2⟩, h3⟩, h4⟩ := h
    exact ⟨⟨⟨by omega, h2⟩, h3⟩, h4⟩

/-- Occurrence sequences are finite: positions are distinct and bounded by
the document length. -/
theorem occSeq_length_le (search needle : List Char) : ∀ (xs : List Nat) (lo : Nat),
    occSeq search needle lo xs = true → xs.length ≤ search.length + 1 - lo := by
  intro xs
  induction xs with
  | nil => intro lo _; simp
  | cons x xs ih =>
    intro lo h
    simp only [occSeq, Bool.and_eq_true, decide_eq_true_eq] at h
    obtain ⟨⟨⟨h1, h2⟩, h3⟩, h4⟩ := h
    have h5 := ih (x + max needle.length 1) h4
    have h6 : 1 ≤ max needle.length 1 := le_max_right _ _
    simp only [List.length_cons]
    omega

/-- No occurrence sequence is longer than the exact-match loop's output:
the loop's leftmost-first strategy is maximal among non-overlapping
occurrence lists. -/
theorem exactSpans_maximal (search needle : List Char) (hne : needle ≠ []) :
    ∀ (xs : List Nat) (fuel sp : Nat) (l : List (Nat × Nat)),
      exactSpansAux search needle needle.length fuel sp = some l →
      occSeq search needle sp xs = true → xs.length ≤ l.length := by
  intro xs
  induction xs with
  | nil => intro fuel sp l _ _; simp
  | cons x xs ih =>
    intro fuel sp l h hocc
    simp only [occSeq, Bool.and_eq_true, decide_eq_true_eq] at hocc
    obtain ⟨⟨⟨h1, h2⟩, h3⟩, h4⟩ := hocc
    have hLpos : 1 ≤ needle.length := List.length_pos.mpr hne
    have hmax : max needle.length 1 = needle.length := Nat.max_eq_left hLpos
    rw [hmax] at h4
    cases fuel with
    | zero => exact absurd h (by simp [exactSpansAux])
    | succ f =>
      have hxlen : x ≤ search.length := by omega
      obtain ⟨pos, hpos⟩ := pyFind_isSome_of_occ search needle sp x h1 hxlen h3
      simp only [exactSpansAux_succ, hpos] at h
      cases hrec : exactSpansAux search needle needle.length f (pos + needle.length) with
      | none => rw [hrec] at h; simp at h
      | some l' =>
        rw [hrec] at h
        simp only [Option.map_some'] at h
        have hl : l = (pos, pos + needle.length) :: l' := (Option.some.inj h).symm
        subst hl
        obtain ⟨hp1, hp2, hfit, hpre, hleast⟩ := pyFind_some search needle sp pos hpos
        have hposx : pos ≤ x := by
          by_contra hgt
          push_neg at hgt
          have hfalse := hleast x h1 hgt
          rw [h3] at hfalse
          exact Bool.noConfusion hfalse
        have h4m : occSeq search needle (pos + needle.length) xs = true :=
          occSeq_mono search needle xs (x + needle.length) (pos + needle.length) (by omega) h4
        have hxs := ih f (pos + needle.length) l' hrec h4m
        simp only [List.length_cons]
        omega

/-- The starting positions of the exact-match loop's spans form an
occurrence sequence. -/
theorem exactSpans_occSeq (search needle : List Char) (hne : needle ≠ []) :
    ∀ (fuel sp : Nat) (l : List (Nat × Nat)),
      exactSpansAux search needle needle.length fuel sp = some l →
      occSeq search needle sp (l.map Prod.fst) = true := by
  intro fuel
  induction fuel with
  | zero => intro sp l h; exact absurd h (by simp [exactSpansAux])
  | succ f ih =>
    intro sp l h
    cases hf : pyFind search needle sp with
    | none =>
      simp only [exactSpansAux_succ, hf] at h
      have hl : l = [] := (Option.some.inj h).symm
      subst hl
      rfl
    | some pos =>
      simp only [exactSpansAux_succ, hf] at h
      cases hrec : exactSpansAux search needle needle.length f (pos + needle.length) with
      | none => rw [hrec] at h; simp at h
      | some l' =>
        rw [hrec] at h
        simp only [Option.map_some'] at h
        have hl : l = (pos, pos + needle.length) :: l' := (Option.some.inj h).symm
        subst hl
        obtain ⟨hp1, hp2, hfit, hpre, _⟩ := pyFind_some search needle sp pos hf
        have hrec2 := ih (pos + needle.length) l' hrec
        have hmax : max needle.length 1 = needle.length :=
          Nat.max_eq_left (List.length_pos.mpr hne)
        simp only [List.map_cons, occSeq, Bool.and_eq_true, decide_eq_true_eq, hmax]
        exact ⟨⟨⟨hp1, hfit⟩, hpre⟩, hrec2⟩

/-- The exact-match loop's spans start at or after the resume position and
are chained: each span begins at or after the previous span's end. -/
theorem exactSpans_chain (search needle : List Char) (tl : Nat) :
    ∀ (fuel sp : Nat) (l : List (Nat × Nat)),
      exactSpansAux search needle tl fuel sp = some l →
      (∀ se ∈ l, sp ≤ se.1) ∧ List.Chain' (fun a b : Nat × Nat => a.2 ≤ b.1) l := by
  intro fuel
  induction fuel with
  | zero => intro sp l h; exact absurd h (by simp [exactSpansAux])
  | succ f ih =>
    intro sp l h
    cases hf : pyFind search needle sp with
    | none =>
      simp only [exactSpansAux_succ, hf] at h
      have hl : l = [] := (Option.some.inj h).symm
      subst hl
      exact ⟨fun se hse => absurd hse (List.not_mem_nil se), List.chain'_nil⟩
    | some pos =>
      simp only [exactSpansAux_succ, hf] at h
      cases hrec : exactSpansAux search needle tl f (pos + tl) with
      | none => rw [hrec] at h; simp at h
      | some l' =>
        rw [hrec] at h
        simp only [Option.map_some'] at h
        have hl : l = (pos, pos + tl) :: l' := (Option.some.inj h).symm
        subst hl
        obtain ⟨hall, hchain⟩ := ih (pos + tl) l' hrec
        obtain ⟨hp1, _, _, _, _⟩ := pyFind_some search needle sp pos hf
        constructor
        · intro se hse
          cases hse with
          | head => exact hp1
          | tail _ hmem =>
            have := hall se hmem
            omega
        · cases l' with
          | nil => exact List.chain'_singleton _
          | cons y ys =>
            refine List.chain'_cons.mpr ⟨?_, hchain⟩
            exact hall y (List.mem_cons_self y ys)

/-- For a non-empty needle the exact-match loop terminates: every iteration
advances the resume position by at least one, so `|search| + 1` iterations
suffice from position `0`. -/
theorem exactSpansAux_terminates (search needle : List Char) (hne : needle ≠ []) :
    ∀ (f sp : Nat), search.length + 1 ≤ f + sp →
      ∃ l, exactSpansAux search needle needle.length (f + 1) sp = some l := by
  intro f
  induction f with
  | zero =>
    intro sp hsp
    have hf : pyFind search needle sp = none := by
      unfold pyFind
      have hz : search.length + 1 - sp = 0 := by omega
      rw [hz]
      rfl
    exact ⟨[], by simp only [exactSpansAux_succ, hf]⟩
  | succ f ih =>
    intro sp hsp
    cases hf : pyFind search needle sp with
    | none => exact ⟨[], by simp only [exactSpansAux_succ, hf]⟩
    | some pos =>
      obtain ⟨hp1, hp2, hfit, hpre, _⟩ := pyFind_some search needle sp pos hf
      have hLpos : 1 ≤ needle.length := List.length_pos.mpr hne
      obtain ⟨l', hl'⟩ := ih (pos + needle.length) (by omega)
      refine ⟨(pos, pos + needle.length) :: l', ?_⟩
      rw [exactSpansAux_succ_some search needle needle.length (f + 1) sp pos hf, hl']
      rfl

/-- C6, amended: for every document and every *non-empty* term, exact
matching terminates and its output is exactly one `Match` (kind
`exact_match`) per non-overlapping occurrence: if the document contains
exactly `k` non-overlapping occurrences of the term (there is an occurrence
sequence of length `k` and none longer), the loop returns exactly `k`
entries, each span a genuine occurrence of width `|term|`, spans strictly
increasing and non-overlapping (chained end-before-start), produced by the
repeated leftmost search that resumes right after each previous match's
end. -/
theorem C6_exact_match_exactly_k (doc term : List Char) (file_name : String) (W k : Nat)
    (h1 : term ≠ [])
    (h2 : ∃ xs, occSeq doc term 0 xs = true ∧ xs.length = k)
    (h3 : ∀ xs, occSeq doc term 0 xs = true → xs.length ≤ k) :
    ∃ spans ms,
      exactSpansAux doc term term.length (doc.length + 2) 0 = some spans ∧
      exactMatchFn doc doc term file_name true W (doc.length + 2) = some ms ∧
      ms = spans.map (fun se => mkMatch doc se.1 se.2 term file_name "exact_match" W) ∧
      spans.length = k ∧ ms.length = k ∧
      (∀ m ∈ ms, m.match_type = "exact_match") ∧
      (∀ se ∈ spans,
        se.2 = se.1 + term.length ∧ term.isPrefixOf (doc.drop se.1) = true ∧ se.1 < se.2) ∧
      List.Chain' (fun a b : Nat × Nat => a.2 ≤ b.1) spans := by
  obtain ⟨spans, hspans⟩ := exactSpansAux_terminates doc term h1 (doc.length + 1) 0 (by omega)
  have hspans2 : exactSpansAux doc term term.length (doc.length + 2) 0 = some spans := hspans
  have hmf : exactMatchFn doc doc term file_name true W (doc.length + 2) =
      some (spans.map (fun se => mkMatch doc se.1 se.2 term file_name "exact_match" W)) := by
    simp only [exactMatchFn, if_true]
    rw [hspans2]
    rfl
  have hocc := exactSpans_occSeq doc term h1 _ 0 spans hspans2
  have hle1 : spans.length ≤ k := by
    have hmk := h3 (spans.map Prod.fst) hocc
    simpa using hmk
  have hle2 : k ≤ spans.length := by
    obtain ⟨xs, hxs, hxsl⟩ := h2
    have := exactSpans_maximal doc term h1 xs _ 0 spans hspans2 hxs
    omega
  have hklen : spans.length = k := by omega
  have hfacts := exactSpansAux_spans doc term term.length _ 0 spans hspans2
  have hchain := (exactSpans_chain doc term term.length _ 0 spans hspans2).2
  refine ⟨spans, _, hspans2, hmf, rfl, hklen, by simp [hklen], ?_, ?_, hchain⟩
  · intro m hm
    obtain ⟨se, _, hsem⟩ := List.mem_map.mp hm
    rw [← hsem]
    rfl
  · intro se hse
    obtain ⟨ha, hb, _⟩ := hfacts se hse
    have hLpos : 1 ≤ term.length := List.length_pos.mpr h1
    exact ⟨ha, hb, by omega⟩

/-- Witness for `C6_exact_match_exactly_k`: `"abab"` contains exactly two
non-overlapping occurrences of `"ab"`, and exact matching returns exactly
those two spans. -/
theorem C6_exact_match_exactly_k_witness :
    ∃ spans ms,
      exactSpansAux ['a', 'b', 'a', 'b'] ['a', 'b'] (['a', 'b'] : List Char).length
        ((['a', 'b', 'a', 'b'] : List Char).length + 2) 0 = some spans ∧
      exactMatchFn ['a', 'b', 'a', 'b'] ['a', 'b', 'a', 'b'] ['a', 'b'] "f" true 0
        ((['a', 'b', 'a', 'b'] : List Char).length + 2) = some ms ∧
      ms = spans.map (fun se =>
        mkMatch ['a', 'b', 'a', 'b'] se.1 se.2 ['a', 'b'] "f" "exact_match" 0) ∧
      spans.length = 2 ∧ ms.length = 2 ∧
      (∀ m ∈ ms, m.match_type = "exact_match") ∧
      (∀ se ∈ spans,
        se.2 = se.1 + (['a', 'b'] : List Char).length ∧
        (['a', 'b'] : List Char).isPrefixOf ((['a', 'b', 'a', 'b'] : List Char).drop se.1) =
          true ∧
        se.1 < se.2) ∧
      List.Chain' (fun a b : Nat × Nat => a.2 ≤ b.1) spans :=
  C6_exact_match_exactly_k ['a', 'b', 'a', 'b'] ['a', 'b'] "f" 0 2
    (by decide)
    ⟨[0, 2], by decide, by decide⟩
    (fun xs hxs => by
      have hb := exactSpans_maximal ['a', 'b', 'a', 'b'] ['a', 'b'] (by decide) xs 6 0
        [(0, 2), (2, 4)] (by decide) hxs
      simpa using hb)

/-- C6, counterexample: the empty term (a term with no `'+'`, so dispatched
to exact matching) makes `_exact_match` loop forever — `find` returns the
same position again and `start_pos` never advances — even though the empty
document contains exactly one (empty) occurrence of it; so exact matching
does not return `k` entries there, it does not return at all. -/
theorem C6_counterexample :
    (∃ xs, occSeq ([] : List Char) ([] : List Char) 0 xs = true ∧ xs.length = 1) ∧
    (∀ xs, occSeq ([] : List Char) ([] : List Char) 0 xs = true → xs.length ≤ 1) ∧
    ¬ ∃ (fuel : Nat) (ms : List Match),
        exactMatchFn ([] : List Char) ([] : List Char) ([] : List Char) "f" true 300 fuel =
          some ms := by
  refine ⟨⟨[0], by decide, by decide⟩, ?_, ?_⟩
  · intro xs hxs
    have hb := occSeq_length_le ([] : List Char) ([] : List Char) xs 0 hxs
    simpa using hb
  · rintro ⟨fuel, ms, h⟩
    have hnone : ∀ f : Nat, exactSpansAux ([] : List Char) ([] : List Char) 0 f 0 = none := by
      intro f
      induction f with
      | zero => rfl
      | succ g ih =>
        have hf : pyFind ([] : List Char) ([] : List Char) 0 = some 0 := rfl
        rw [exactSpansAux_succ_some ([] : List Char) ([] : List Char) 0 g 0 0 hf]
        rw [show (0 : Nat) + 0 = 0 from rfl, ih]
        rfl
    simp only [exactMatchFn, if_true] at h
    rw [show (([] : List Char)).length = 0 from rfl, hnone fuel] at h
    simp at h

/-! ## Helper lemmas: extractor state -/

/-- The matches one run contributes, independently of the accumulator
already in `self.matches` (depends only on the configuration lengths, the
documents and the terms). -/
def docsNewMatches (terms : List (List Char)) (case_sensitive : Bool) (fuel : Nat)
    (context_length loose_match_length : Nat) : List (String × List Char) → Option (List Match)
  | [] => some []
  | (file_name, content) :: docs =>
    match processTerms content (if case_sensitive then content else content.map Char.toLower)
        file_name case_sensitive context_length loose_match_length fuel terms with
    | none => none
    | some ms =>
      (docsNewMatches terms case_sensitive fuel context_length loose_match_length docs).map
        (fun rest => ms ++ rest)

/-- The document loop of `extract_content` only ever appends: the final
state is the starting state with this run's new matches appended. -/
theorem extractContentAux_eq (terms : List (List Char)) (cs : Bool) (fuel : Nat) :
    ∀ (docs : List (String × List Char)) (ex : ContentExtractor),
      extractContentAux terms cs fuel ex docs =
        (docsNewMatches terms cs fuel ex.context_length ex.loose_match_length docs).map
          (fun new => { ex with matches_ := ex.matches_ ++ new }) := by
  intro docs
  induction docs with
  | nil => intro ex; simp [extractContentAux, docsNewMatches]
  | cons d docs ih =>
    intro ex
    obtain ⟨fn, c⟩ := d
    simp only [extractContentAux, docsNewMatches, processFile]
    cases hpt : processTerms c (if cs then c else c.map Char.toLower) fn cs
        ex.context_length ex.loose_match_length fuel terms with
    | none => simp [hpt]
    | some new =>
      simp only [hpt, Option.map_some']
      rw [ih { ex with matches_ := ex.matches_ ++ new }]
      cases hd : docsNewMatches terms cs fuel ex.context_length ex.loose_match_length docs with
      | none => simp [hd]
      | some rest => simp [hd, List.append_assoc]

/-- C10: `self.matches` starts empty at construction and is only ever
appended to — no operation clears or removes entries — so a second
`extract_content` call on the same instance accumulates the matches of both
runs, and `_save_results` then persists the combined list of all runs (or
writes nothing only when even the combined list is empty). -/
theorem C10_matches_accumulate (W L : Nat) (docs1 docs2 : List (String × List Char))
    (terms1 terms2 : List (List Char)) (cs1 cs2 : Bool) (fuel : Nat)
    (new1 new2 : List Match) :
    (initExtractor W L).matches_ = [] ∧
    (∀ (ex ex' : ContentExtractor) (docs : List (String × List Char))
        (terms : List (List Char)) (cs : Bool),
      extractContent ex docs terms cs fuel = some ex' →
      ∃ new, ex'.matches_ = ex.matches_ ++ new) ∧
    (runMatches W L docs1 terms1 cs1 fuel = some new1 →
     runMatches W L docs2 terms2 cs2 fuel = some new2 →
     ∃ ex1 ex2,
       extractContent (initExtractor W L) docs1 terms1 cs1 fuel = some ex1 ∧
       ex1.matches_ = new1 ∧
       extractContent ex1 docs2 terms2 cs2 fuel = some ex2 ∧
       ex2.matches_ = new1 ++ new2 ∧
       saveResults ex2 = (if (new1 ++ new2).isEmpty then none else some (new1 ++ new2))) := by
  refine ⟨rfl, ?_, ?_⟩
  · intro ex ex' docs terms cs h
    rw [extractContent, extractContentAux_eq] at h
    cases hd : docsNewMatches terms cs fuel ex.context_length ex.loose_match_length docs with
    | none => rw [hd] at h; simp at h
    | some new =>
      rw [hd] at h
      simp only [Option.map_some'] at h
      exact ⟨new, by rw [← Option.some.inj h]⟩
  · intro h1 h2
    rw [runMatches, extractContent, extractContentAux_eq] at h1 h2
    cases hd1 : docsNewMatches terms1 cs1 fuel W L docs1 with
    | none =>
      rw [show (initExtractor W L).context_length = W from rfl,
        show (initExtractor W L).loose_match_length = L from rfl, hd1] at h1
      simp at h1
    | some n1 =>
      rw [show (initExtractor W L).context_length = W from rfl,
        show (initExtractor W L).loose_match_length = L from rfl, hd1] at h1
      simp only [Option.map_some'] at h1
      have hn1 : n1 = new1 := by
        have := Option.some.inj h1
        simpa using this
      subst hn1
      cases hd2 : docsNewMatches terms2 cs2 fuel W L docs2 with
      | none =>
        rw [show (initExtractor W L).context_length = W from rfl,
          show (initExtractor W L).loose_match_length = L from rfl, hd2] at h2
        simp at h2
      | some n2 =>
        rw [show (initExtractor W L).context_length = W from rfl,
          show (initExtractor W L).loose_match_length = L from rfl, hd2] at h2
        simp only [Option.map_some'] at h2
        have hn2 : n2 = new2 := by
          have := Option.some.inj h2
          simpa using this
        subst hn2
        refine ⟨(⟨W, L, n1⟩ : ContentExtractor), (⟨W, L, n1 ++ n2⟩ : ContentExtractor),
          ?_, rfl, ?_, rfl, rfl⟩
        · rw [extractContent, extractContentAux_eq,
            show (initExtractor W L).context_length = W from rfl,
            show (initExtractor W L).loose_match_length = L from rfl, hd1]
          rfl
        · rw [extractContent, extractContentAux_eq,
            show ((⟨W, L, n1⟩ : ContentExtractor)).context_length = W from rfl,
            show ((⟨W, L, n1⟩ : ContentExtractor)).loose_match_length = L from rfl, hd2]
          rfl

/-- Witness for `C10_matches_accumulate`: running the same one-document
extraction twice on one instance leaves both runs' matches in
`self.matches`, and `_save_results` persists the two-element combined
list. -/
theorem C10_matches_accumulate_witness :
    ∃ ex1 ex2,
      extractContent (initExtractor 0 2) [("f", ['a'])] [['a']] true 5 = some ex1 ∧
      ex1.matches_ =
        [{ file_name := "f", match_type := "exact_match", match_term := ['a'],
           context := ['a'] }] ∧
      extractContent ex1 [("f", ['a'])] [['a']] true 5 = some ex2 ∧
      ex2.matches_ =
        ([{ file_name := "f", match_type := "exact_match", match_term := ['a'],
            context := ['a'] }] ++
         [{ file_name := "f", match_type := "exact_match", match_term := ['a'],
            context := ['a'] }]) ∧
      saveResults ex2 =
        (if (([{ file_name := "f", match_type := "exact_match", match_term := ['a'],
                 context := ['a'] }] ++
              [{ file_name := "f", match_type := "exact_match", match_term := ['a'],
                 context := ['a'] }] : List Match)).isEmpty
         then none
         else some
           ([{ file_name := "f", match_type := "exact_match", match_term := ['a'],
               context := ['a'] }] ++
            [{ file_name := "f", match_type := "exact_match", match_term := ['a'],
               context := ['a'] }])) :=
  (C10_matches_accumulate 0 2 [("f", ['a'])] [("f", ['a'])] [['a']] [['a']] true true 5
    [{ file_name := "f", match_type := "exact_match", match_term := ['a'], context := ['a'] }]
    [{ file_name := "f", match_type := "exact_match", match_term := ['a'],
       context := ['a'] }]).2.2 (by rfl) (by rfl)
